import Mathlib

/-!
Shallow embedding of the sequence-batched training/evaluation orchestrator
of the show-attend-and-tell captioning repository (core/solver.py), together
with theorems checking its natural-language specification.

Conventions of the embedding:
* tensors are lists: a feature map or a logit row is a `List ℚ` (exact
  rationals stand in for the float values the code manipulates);
* a mini-batch element is a triple (feature, cap_vec, caption) exactly as
  unpacked by pack_collate_fn;
* the neural network (`self.model`) is an external collaborator and is
  modelled as a structure of opaque-to-us functions with the interface the
  solver uses (batch_norm, project_features, get_initial_lstm, step);
* the cross-entropy criterion is modelled over ℝ with the textbook
  definition log-sum-exp minus the target logit, which is what
  nn.CrossEntropyLoss computes (with ignore_index and sum reduction).
-/

/-! ### Batch assembler: pack_collate_fn (solver.py lines 15-26) -/

abbrev Vec := List ℚ

/-- A raw dataset element as unpacked by pack_collate_fn:
(feature, cap_vec, caption). -/
abbrev RawExample := Vec × List ℕ × String

/-- Length of the i-th caption vector; the sort key
lambda x: len(cap_vecs[x]) of line 18. -/
def lenKey (cap_vecs : List (List ℕ)) (i : ℕ) : ℕ :=
  (cap_vecs.getD i []).length

/-- Insert index i into a list that is sorted by key descending, placing i
before the first entry whose key is ≤ key i.  Inserting indices from the
back of the original order (foldr) makes this exactly the stable
descending sort that Python's sorted(..., reverse=True) performs. -/
def insertDescStable (key : ℕ → ℕ) (i : ℕ) : List ℕ → List ℕ
  | [] => [i]
  | j :: js => if key j ≤ key i then i :: j :: js else j :: insertDescStable key i js

/-- Stable sort of a list of indices by key, descending (Python
sorted(range(n), key, reverse=True)). -/
def sortIdxDesc (key : ℕ → ℕ) (l : List ℕ) : List ℕ :=
  l.foldr (insertDescStable key) []

/-- len_sorted_idx of solver.py line 18. -/
def len_sorted_idx (cap_vecs : List (List ℕ)) : List ℕ :=
  sortIdxDesc (lenKey cap_vecs) (List.range cap_vecs.length)

/-- Maximum sequence length in a batch of caption vectors. -/
def maxSeqLen (seqs : List (List ℕ)) : ℕ :=
  (seqs.map List.length).foldr max 0

/-- batch_sizes of nn.utils.rnn.pack_sequence: entry t is the number of
sequences whose length exceeds t (the sequences are sorted by decreasing
length, which pack_sequence requires). -/
def packBatchSizes (seqs : List (List ℕ)) : List ℕ :=
  (List.range (maxSeqLen seqs)).map (fun t => (seqs.filter (fun s => t < s.length)).length)

/-- data of nn.utils.rnn.pack_sequence: timestep-major concatenation; slot t
holds the t-th token of every sequence longer than t, in batch order. -/
def packData (seqs : List (List ℕ)) : List ℕ :=
  ((List.range (maxSeqLen seqs)).map
    (fun t => (seqs.filter (fun s => t < s.length)).map (fun s => s.getD t 0))).flatten

/-- The (data, batch_sizes) pair underlying a torch PackedSequence. -/
structure PackedSeq where
  data : List ℕ
  batch_sizes : List ℕ
  deriving DecidableEq, Repr

/-- Output of pack_collate_fn: (len_sorted_features, packed_cap_vecs,
len_sorted_captions, seq_lens). -/
structure CollateOut where
  features : List Vec
  packed_cap_vecs : PackedSeq
  captions : List String
  seq_lens : List ℚ
  deriving DecidableEq, Repr

/-- Embedding of pack_collate_fn (solver.py lines 15-26).  seq_lens is the
(B,1) float column of sorted lengths, modelled as a list of rationals. -/
def pack_collate_fn (batch : List RawExample) : CollateOut :=
  let features := batch.map (fun ex => ex.1)
  let cap_vecs := batch.map (fun ex => ex.2.1)
  let captions := batch.map (fun ex => ex.2.2)
  let idx := len_sorted_idx cap_vecs
  let len_sorted_cap_vecs := idx.map (fun i => cap_vecs.getD i [])
  { features := idx.map (fun i => features.getD i []),
    packed_cap_vecs :=
      { data := packData len_sorted_cap_vecs,
        batch_sizes := packBatchSizes len_sorted_cap_vecs },
    captions := idx.map (fun i => captions.getD i ""),
    seq_lens := len_sorted_cap_vecs.map (fun cv => (cv.length : ℚ)) }

example :
    (pack_collate_fn [([1], [1, 3, 2], "a"), ([2], [1, 3, 4, 2], "b")]).packed_cap_vecs =
      { data := [1, 1, 3, 3, 4, 2, 2], batch_sizes := [2, 2, 2, 1] } := by
  decide

example :
    (pack_collate_fn [([1], [1, 3, 2], "a"), ([2], [1, 3, 4, 2], "b")]).features =
      [[2], [1]] := by
  decide

/-! ### Ordering properties of the stable descending sort (claim C1) -/

/-- The order produced by Python's sorted(range(n), key, reverse=True):
an earlier output entry has a strictly larger key, or an equal key and a
smaller original index (stable tie-break). -/
def descKeyLt (key : ℕ → ℕ) (a b : ℕ) : Prop :=
  key b < key a ∨ (key a = key b ∧ a < b)

theorem insertDescStable_perm (key : ℕ → ℕ) (i : ℕ) (l : List ℕ) :
    (insertDescStable key i l).Perm (i :: l) := by
  induction l with
  | nil => simp [insertDescStable]
  | cons j js ih =>
    by_cases h : key j ≤ key i
    · simp [insertDescStable, h]
    · simp only [insertDescStable, if_neg h]
      exact (ih.cons j).trans (List.Perm.swap i j js)

theorem mem_insertDescStable {key : ℕ → ℕ} {i x : ℕ} {l : List ℕ} :
    x ∈ insertDescStable key i l ↔ x = i ∨ x ∈ l := by
  simpa using (insertDescStable_perm key i l).mem_iff

theorem insertDescStable_pairwise {key : ℕ → ℕ} {i : ℕ} {l : List ℕ}
    (hl : l.Pairwise (descKeyLt key)) (hi : ∀ x ∈ l, i < x) :
    (insertDescStable key i l).Pairwise (descKeyLt key) := by
  induction l with
  | nil => simp [insertDescStable, descKeyLt]
  | cons j js ih =>
    rcases List.pairwise_cons.mp hl with ⟨hj, hjs⟩
    by_cases h : key j ≤ key i
    · simp only [insertDescStable, if_pos h]
      refine List.pairwise_cons.mpr ⟨?_, hl⟩
      intro x hx
      rcases List.mem_cons.mp hx with rfl | hx'
      · have hij := hi x (List.mem_cons_self _ _)
        show key x < key i ∨ (key i = key x ∧ i < x)
        omega
      · rcases hj x hx' with hlt | ⟨heq, hjx⟩
        · exact Or.inl (lt_of_lt_of_le hlt h)
        · have hix := hi x (List.mem_cons_of_mem _ hx')
          show key x < key i ∨ (key i = key x ∧ i < x)
          omega
    · simp only [insertDescStable, if_neg h]
      refine List.pairwise_cons.mpr
        ⟨?_, ih hjs (fun x hx => hi x (List.mem_cons_of_mem _ hx))⟩
      intro x hx
      rcases mem_insertDescStable.mp hx with rfl | hx'
      · exact Or.inl (not_le.mp h)
      · exact hj x hx'

theorem sortIdxDesc_perm (key : ℕ → ℕ) (l : List ℕ) : (sortIdxDesc key l).Perm l := by
  induction l with
  | nil => rfl
  | cons i l ih => exact (insertDescStable_perm key i _).trans (ih.cons i)

theorem sortIdxDesc_pairwise {key : ℕ → ℕ} {l : List ℕ} (hl : l.Pairwise (· < ·)) :
    (sortIdxDesc key l).Pairwise (descKeyLt key) := by
  induction l with
  | nil => exact List.Pairwise.nil
  | cons i l ih =>
    rcases List.pairwise_cons.mp hl with ⟨hi, hl'⟩
    exact insertDescStable_pairwise (ih hl')
      (fun x hx => hi x ((sortIdxDesc_perm key l).mem_iff.mp hx))

theorem len_sorted_idx_perm (cv : List (List ℕ)) :
    (len_sorted_idx cv).Perm (List.range cv.length) :=
  sortIdxDesc_perm _ _

theorem len_sorted_idx_pairwise (cv : List (List ℕ)) :
    (len_sorted_idx cv).Pairwise (descKeyLt (lenKey cv)) :=
  sortIdxDesc_pairwise (List.pairwise_lt_range _)

theorem map_getD_range {α : Type} (l : List α) (d : α) :
    (List.range l.length).map (fun i => l.getD i d) = l := by
  apply List.ext_getElem
  · simp
  · intro i h1 h2
    simp only [List.getElem_map, List.getElem_range]
    rw [List.getD_eq_getElem l d h2]

theorem maxSeqLen_cons (a : List ℕ) (l : List (List ℕ)) :
    maxSeqLen (a :: l) = max a.length (maxSeqLen l) := rfl

theorem length_le_maxSeqLen {seqs : List (List ℕ)} {s : List ℕ} (hs : s ∈ seqs) :
    s.length ≤ maxSeqLen seqs := by
  induction seqs with
  | nil => cases hs
  | cons a l ih =>
    rcases List.mem_cons.mp hs with rfl | h
    · rw [maxSeqLen_cons]; exact le_max_left _ _
    · rw [maxSeqLen_cons]; exact le_trans (ih h) (le_max_right _ _)

theorem packBatchSizes_length (seqs : List (List ℕ)) :
    (packBatchSizes seqs).length = maxSeqLen seqs := by
  simp [packBatchSizes]

theorem packBatchSizes_getD (seqs : List (List ℕ)) (t : ℕ) :
    (packBatchSizes seqs).getD t 0 = (seqs.filter (fun s => t < s.length)).length := by
  by_cases h : t < maxSeqLen seqs
  · rw [List.getD_eq_getElem _ _ (by rw [packBatchSizes_length]; exact h)]
    simp [packBatchSizes]
  · rw [List.getD_eq_default _ _ (by rw [packBatchSizes_length]; omega)]
    have hnone : ∀ s ∈ seqs, ¬ (t < s.length) := by
      intro s hs
      have := length_le_maxSeqLen hs
      omega
    have : seqs.filter (fun s => t < s.length) = [] := by
      simp only [List.filter_eq_nil_iff, decide_eq_true_eq]
      exact hnone
    rw [this]
    rfl

theorem filter_length_mono {α : Type} (l : List α) (p q : α → Bool)
    (h : ∀ a ∈ l, p a = true → q a = true) :
    (l.filter p).length ≤ (l.filter q).length := by
  induction l with
  | nil => simp
  | cons a l ih =>
    have ih' := ih (fun x hx => h x (List.mem_cons_of_mem _ hx))
    by_cases hp : p a
    · have hq := h a (List.mem_cons_self _ _) hp
      simp only [List.filter_cons, hp, hq, if_pos]
      simpa using ih'
    · by_cases hq : q a <;>
        simp only [List.filter_cons, hp, hq] <;> simp <;> omega

theorem packBatchSizes_nonincreasing (seqs : List (List ℕ)) (t : ℕ) :
    (packBatchSizes seqs).getD (t + 1) 0 ≤ (packBatchSizes seqs).getD t 0 := by
  rw [packBatchSizes_getD, packBatchSizes_getD]
  refine filter_length_mono _ _ _ ?_
  intro s _ hs
  simp only [decide_eq_true_eq] at hs ⊢
  omega

theorem packBatchSizes_head (seqs : List (List ℕ)) (h : ∀ s ∈ seqs, s ≠ []) :
    (packBatchSizes seqs).getD 0 0 = seqs.length := by
  rw [packBatchSizes_getD]
  have : seqs.filter (fun s => 0 < s.length) = seqs := by
    rw [List.filter_eq_self]
    intro s hs
    simp only [decide_eq_true_eq, List.length_pos]
    exact h s hs
  rw [this]

theorem packBatchSizes_ne_nil {seqs : List (List ℕ)} (h1 : seqs ≠ [])
    (h2 : ∀ s ∈ seqs, s ≠ []) : packBatchSizes seqs ≠ [] := by
  have hmax : 0 < maxSeqLen seqs := by
    rcases seqs with _ | ⟨a, l⟩
    · exact absurd rfl h1
    · have ha : 0 < a.length := List.length_pos.mpr (h2 a (List.mem_cons_self _ _))
      rw [maxSeqLen_cons]
      omega
  intro hnil
  have := packBatchSizes_length seqs
  rw [hnil] at this
  simp at this
  omega

theorem len_sorted_cap_vecs_perm (cv : List (List ℕ)) :
    ((len_sorted_idx cv).map (fun i => cv.getD i [])).Perm cv := by
  have h1 := (len_sorted_idx_perm cv).map (fun i => cv.getD i [])
  rwa [map_getD_range cv []] at h1

/-- C1: for every non-empty input batch (of non-empty token sequences, which
pack_sequence requires), pack_collate_fn orders the examples by descending
token-sequence length with ties keeping the original relative order (the
permutation len_sorted_idx is a permutation of range(batchSize) that is
pairwise ordered by descKeyLt, and the features are reordered along it), and
the batch_sizes of the packed sequence are monotonically non-increasing with
first entry equal to the batch size. -/
theorem pack_collate_fn_sorted_counts (batch : List RawExample)
    (hne : batch ≠ []) (hcv : ∀ ex ∈ batch, ex.2.1 ≠ []) :
    (len_sorted_idx (batch.map (fun ex => ex.2.1))).Perm (List.range batch.length)
    ∧ (len_sorted_idx (batch.map (fun ex => ex.2.1))).Pairwise
        (descKeyLt (lenKey (batch.map (fun ex => ex.2.1))))
    ∧ (pack_collate_fn batch).features =
        (len_sorted_idx (batch.map (fun ex => ex.2.1))).map
          (fun i => (batch.map (fun ex => ex.1)).getD i [])
    ∧ (∀ t, (pack_collate_fn batch).packed_cap_vecs.batch_sizes.getD (t + 1) 0
          ≤ (pack_collate_fn batch).packed_cap_vecs.batch_sizes.getD t 0)
    ∧ (pack_collate_fn batch).packed_cap_vecs.batch_sizes.getD 0 0 = batch.length
    ∧ (pack_collate_fn batch).packed_cap_vecs.batch_sizes ≠ [] := by
  set cv := batch.map (fun ex => ex.2.1) with hcvdef
  have hcvlen : cv.length = batch.length := List.length_map _ _
  have hmem : ∀ s ∈ (len_sorted_idx cv).map (fun i => cv.getD i []), s ≠ [] := by
    intro s hs
    have hscv : s ∈ cv := (len_sorted_cap_vecs_perm cv).mem_iff.mp hs
    rcases List.mem_map.mp hscv with ⟨ex, hex, rfl⟩
    exact hcv ex hex
  have hslen : ((len_sorted_idx cv).map (fun i => cv.getD i [])).length = batch.length := by
    rw [(len_sorted_cap_vecs_perm cv).length_eq, hcvlen]
  have hbpos : 0 < batch.length := List.length_pos.mpr hne
  have hsne : ((len_sorted_idx cv).map (fun i => cv.getD i [])) ≠ [] := by
    intro h0
    rw [h0] at hslen
    simp at hslen
    omega
  refine ⟨?_, len_sorted_idx_pairwise cv, rfl, ?_, ?_, ?_⟩
  · have h := len_sorted_idx_perm cv
    rwa [hcvlen] at h
  · intro t
    exact packBatchSizes_nonincreasing _ t
  · rw [show (pack_collate_fn batch).packed_cap_vecs.batch_sizes
        = packBatchSizes ((len_sorted_idx cv).map (fun i => cv.getD i [])) from rfl]
    rw [packBatchSizes_head _ hmem, hslen]
  · exact packBatchSizes_ne_nil hsne hmem

/-- A small concrete batch used by the witnesses: token sequences of lengths
3 and 4 over the vocabulary of the end-to-end scenario of the spec. -/
def demoBatch : List RawExample := [([1], [1, 3, 2], "a"), ([2], [1, 3, 4, 2], "b")]

theorem pack_collate_fn_sorted_counts_witness :
    demoBatch ≠ [] ∧ (∀ ex ∈ demoBatch, ex.2.1 ≠ [])
    ∧ (pack_collate_fn demoBatch).packed_cap_vecs.batch_sizes.getD 0 0 = demoBatch.length :=
  ⟨by decide, by decide,
    (pack_collate_fn_sorted_counts demoBatch (by decide) (by decide)).2.2.2.2.1⟩

/-! ### The model collaborator and the training step engine (_train) -/

/-- Output of one call of the model: per-active-example next-token logits,
per-active-example attention weights over the L spatial locations, and the
updated recurrent state (one row per active example). -/
structure StepOut where
  logits : List Vec
  alpha : List Vec
  hidden : List Vec
  cell : List Vec

/-- The Show-Attend-and-Tell model, an external collaborator: only the
interface used by the solver is modelled.  Recurrent states are kept
batch-major (hidden_states[:, :b] in the source slices the batch
dimension, which here is List.take b). -/
structure Model where
  L : ℕ
  batch_norm : List Vec → List Vec
  project_features : List Vec → List Vec
  get_initial_lstm : List Vec → List Vec × List Vec
  step : List Vec → List Vec → List ℕ → List Vec → List Vec → StepOut

/-- torch.argmax over the last dimension of one logit row: index of the
first maximal entry. -/
def argmaxIdx : Vec → ℕ
  | [] => 0
  | [_] => 0
  | x :: y :: xs =>
      let j := argmaxIdx (y :: xs)
      if (y :: xs).getD j 0 ≤ x then 0 else j + 1

/-- torch.sum(argmax(logits) == targets): number of rows whose argmax
equals the target token. -/
def countCorrect (logits : List Vec) (targets : List ℕ) : ℕ :=
  (List.zipWith (fun row t => if argmaxIdx row = t then 1 else 0) logits targets).sum

/-- Cross-entropy of one logit row against target class t:
log(sum(exp(row))) - row[t]. -/
noncomputable def celoss (row : Vec) (t : ℕ) : ℝ :=
  Real.log ((row.map (fun q : ℚ => Real.exp (q : ℝ))).sum) - ((row.getD t 0 : ℚ) : ℝ)

/-- nn.CrossEntropyLoss(ignore_index = nullIdx, reduction = sum):
targets equal to the padding id contribute zero. -/
noncomputable def word_criterion (nullIdx : ℕ) (logits : List Vec) (targets : List ℕ) : ℝ :=
  (List.zipWith (fun row t => if t = nullIdx then 0 else celoss row t) logits targets).sum

/-- The mutable state of the timestep loop of _train (solver.py 151-169). -/
structure LoopState where
  loss : ℝ
  acc : ℕ
  alphas : List (List Vec)
  hidden : List Vec
  cell : List Vec
  start_idx : ℕ

/-- The pairs (batch_sizes[i], batch_sizes[i+1]) the loop
for i in range(len(batch_sizes)-1) runs over. -/
def stepPairs (bs : List ℕ) : List (ℕ × ℕ) := bs.zip bs.tail

/-- The timestep loop of _train (solver.py lines 155-169), one recursive
call per loop iteration: slice the packed buffer, run the model on the
first batch_sizes[i] examples, accumulate word loss and accuracy over the
first batch_sizes[i+1] rows, record the attention weights, truncate the
carried state. -/
noncomputable def trainLoop (m : Model) (nullIdx : ℕ) (features features_proj : List Vec)
    (cap_vecs : List ℕ) : List (ℕ × ℕ) → LoopState → LoopState
  | [], st => st
  | (bi, bnext) :: rest, st =>
      let end_idx := st.start_idx + bi
      let curr_cap_vecs := (cap_vecs.drop st.start_idx).take bi
      let out := m.step (features.take bi) (features_proj.take bi) curr_cap_vecs
        (st.hidden.take bi) (st.cell.take bi)
      let target := (cap_vecs.drop end_idx).take bnext
      trainLoop m nullIdx features features_proj cap_vecs rest
        { loss := st.loss + word_criterion nullIdx (out.logits.take bnext) target,
          acc := st.acc + countCorrect (out.logits.take bnext) target,
          alphas := st.alphas ++ [out.alpha],
          hidden := out.hidden,
          cell := out.cell,
          start_idx := end_idx }

/-- nn.utils.rnn.pad_sequence: stacks a list of sequences (here: the T
per-timestep attention matrices, each a list of per-example rows) into
shape (longest sequence, number of sequences), padding the short ones. -/
def pad_sequence {α : Type} (seqs : List (List α)) (padv : α) : List (List α) :=
  (List.range ((seqs.map List.length).foldr max 0)).map
    (fun e => seqs.map (fun s => s.getD e padv))

/-- Elementwise sum of two rows. -/
def vecAdd (a b : Vec) : Vec := List.zipWith (· + ·) a b

/-- torch.sum(x, 1): for each leading index, sum the list of L-vectors
elementwise (L is the model's spatial location count). -/
def tsum1 (L : ℕ) (x : List (List Vec)) : List Vec :=
  x.map (fun row => row.foldr vecAdd (List.replicate L 0))

/-- nn.MSELoss(reduction = sum): sum of squared entrywise differences. -/
def mseLossSum (a b : List Vec) : ℚ :=
  (List.zipWith (fun ra rb => (List.zipWith (fun x y => (x - y) ^ 2) ra rb).sum) a b).sum

/-- The loop state _train has accumulated when the timestep loop finishes:
initial loss 0, acc 0, no alphas, initial LSTM state, start_idx 0. -/
noncomputable def train_loop_state (m : Model) (nullIdx : ℕ) (batch : CollateOut) : LoopState :=
  let features := m.batch_norm batch.features
  let features_proj := m.project_features features
  let hc := m.get_initial_lstm features
  trainLoop m nullIdx features features_proj batch.packed_cap_vecs.data
    (stepPairs batch.packed_cap_vecs.batch_sizes)
    { loss := 0, acc := 0, alphas := [], hidden := hc.1, cell := hc.2, start_idx := 0 }

/-- Embedding of _train (solver.py lines 136-180): returns
(loss.item(), acc / sum(batch_sizes[1:])).  The optimizer update mutates
only the external model/optimizer and does not affect the returned pair. -/
noncomputable def _train (m : Model) (alpha_c : ℚ) (nullIdx : ℕ) (batch : CollateOut) : ℝ × ℚ :=
  let bs := batch.packed_cap_vecs.batch_sizes
  let st := train_loop_state m nullIdx batch
  let loss1 : ℝ :=
    if 0 < alpha_c then
      let sum_loc_alphas := tsum1 m.L (pad_sequence st.alphas (List.replicate m.L 0))
      let alphas_reg : ℚ := alpha_c *
        mseLossSum sum_loc_alphas
          (batch.seq_lens.map (fun s => List.replicate m.L (s / (m.L : ℚ))))
      st.loss + (alphas_reg : ℝ)
    else st.loss
  (loss1 / ((bs.getD 0 0 : ℕ) : ℝ), (st.acc : ℚ) / ((bs.tail.sum : ℕ) : ℚ))

/-! ### Timestep counting (claim C3) -/

theorem trainLoop_alphas_length (m : Model) (nullIdx : ℕ) (f fp : List Vec) (cv : List ℕ) :
    ∀ (pairs : List (ℕ × ℕ)) (st : LoopState),
      (trainLoop m nullIdx f fp cv pairs st).alphas.length = st.alphas.length + pairs.length := by
  intro pairs
  induction pairs with
  | nil => intro st; rfl
  | cons p rest ih =>
    intro st
    obtain ⟨bi, bnext⟩ := p
    rw [trainLoop, ih]
    simp
    omega

theorem stepPairs_length (bs : List ℕ) : (stepPairs bs).length = bs.length - 1 := by
  simp [stepPairs]

theorem train_loop_state_alphas_length (m : Model) (nullIdx : ℕ) (batch : CollateOut) :
    (train_loop_state m nullIdx batch).alphas.length
      = batch.packed_cap_vecs.batch_sizes.length - 1 := by
  unfold train_loop_state
  rw [trainLoop_alphas_length]
  simp [stepPairs_length]

theorem maxSeqLen_le {seqs : List (List ℕ)} {L : ℕ} (h : ∀ s ∈ seqs, s.length ≤ L) :
    maxSeqLen seqs ≤ L := by
  induction seqs with
  | nil => simp [maxSeqLen]
  | cons a l ih =>
    rw [maxSeqLen_cons]
    have h1 := h a (List.mem_cons_self _ _)
    have h2 := ih (fun s hs => h s (List.mem_cons_of_mem _ hs))
    omega

theorem packBatchSizes_const {seqs : List (List ℕ)} {L : ℕ} (hne : seqs ≠ [])
    (h : ∀ s ∈ seqs, s.length = L) :
    packBatchSizes seqs = List.replicate L seqs.length := by
  obtain ⟨a, ha⟩ := List.exists_mem_of_ne_nil seqs hne
  have hmax : maxSeqLen seqs = L :=
    le_antisymm (maxSeqLen_le (fun s hs => (h s hs).le))
      ((h a ha) ▸ length_le_maxSeqLen ha)
  unfold packBatchSizes
  rw [hmax]
  refine List.eq_replicate_iff.mpr ⟨by simp, ?_⟩
  intro b hb
  rcases List.mem_map.mp hb with ⟨t, ht, rfl⟩
  have htL : t < L := List.mem_range.mp ht
  have : seqs.filter (fun s => t < s.length) = seqs := by
    rw [List.filter_eq_self]
    intro s hs
    simp only [decide_eq_true_eq]
    rw [h s hs]
    exact htL
  rw [this]

theorem pack_collate_fn_batch_sizes_const (exs : List RawExample) (L : ℕ)
    (hne : exs ≠ []) (hlen : ∀ ex ∈ exs, ex.2.1.length = L) :
    (pack_collate_fn exs).packed_cap_vecs.batch_sizes = List.replicate L exs.length := by
  set cv := exs.map (fun ex => ex.2.1) with hcv
  have hlen' : ∀ s ∈ (len_sorted_idx cv).map (fun i => cv.getD i []), s.length = L := by
    intro s hs
    have hscv : s ∈ cv := (len_sorted_cap_vecs_perm cv).mem_iff.mp hs
    rcases List.mem_map.mp hscv with ⟨ex, hex, rfl⟩
    exact hlen ex hex
  have hslen : ((len_sorted_idx cv).map (fun i => cv.getD i [])).length = exs.length := by
    rw [(len_sorted_cap_vecs_perm cv).length_eq]
    simp [hcv]
  have hsne : ((len_sorted_idx cv).map (fun i => cv.getD i [])) ≠ [] := by
    intro h0
    rw [h0] at hslen
    simp at hslen
    exact hne (List.length_eq_zero.mp hslen.symm)
  rw [show (pack_collate_fn exs).packed_cap_vecs.batch_sizes
      = packBatchSizes ((len_sorted_idx cv).map (fun i => cv.getD i [])) from rfl]
  rw [packBatchSizes_const hsne hlen', hslen]

/-- C3 as written is false on the code: for the two token sequences
[1,3,4,2] and [1,3,2] (lengths 4 and 3) the packed batch_sizes are
[2,2,2,1], not [2,2,1], and the loop runs len(batch_sizes)-1 = 3
timesteps, not 2. -/
theorem _train_timestep_counterexample :
    (pack_collate_fn demoBatch).packed_cap_vecs.batch_sizes ≠ [2, 2, 1]
    ∧ (pack_collate_fn demoBatch).packed_cap_vecs.batch_sizes.length - 1 ≠ 2 := by
  decide

/-- C3 (amended): _train executes exactly len(batch_sizes)-1 recurrent
timesteps (one attention matrix is recorded per timestep); a batch whose
sequences all have length L yields batch_sizes = replicate L batchSize and
L-1 timesteps; the sequences [1,3,4,2] and [1,3,2] yield batch_sizes
[2,2,2,1], exactly 3 timesteps, and the third (final) timestep processes 2
active examples while its loss/accuracy are computed over only
batch_sizes[3] = 1 example. -/
theorem _train_timestep_count (m : Model) (nullIdx : ℕ) (batch : CollateOut)
    (exs : List RawExample) (L : ℕ) (hne : exs ≠ [])
    (hlen : ∀ ex ∈ exs, ex.2.1.length = L) :
    ((train_loop_state m nullIdx batch).alphas.length
        = batch.packed_cap_vecs.batch_sizes.length - 1)
    ∧ (pack_collate_fn exs).packed_cap_vecs.batch_sizes = List.replicate L exs.length
    ∧ (train_loop_state m nullIdx (pack_collate_fn exs)).alphas.length = L - 1
    ∧ (pack_collate_fn demoBatch).packed_cap_vecs.batch_sizes = [2, 2, 2, 1]
    ∧ (train_loop_state m nullIdx (pack_collate_fn demoBatch)).alphas.length = 3
    ∧ stepPairs (pack_collate_fn demoBatch).packed_cap_vecs.batch_sizes
        = [(2, 2), (2, 2), (2, 1)] := by
  have hbs := pack_collate_fn_batch_sizes_const exs L hne hlen
  have hd : (pack_collate_fn demoBatch).packed_cap_vecs.batch_sizes = [2, 2, 2, 1] := by
    decide
  refine ⟨train_loop_state_alphas_length m nullIdx batch, hbs, ?_, hd, ?_, by decide⟩
  · rw [train_loop_state_alphas_length, hbs]
    simp
  · rw [train_loop_state_alphas_length, hd]
    rfl

/-- A concrete instance of the model collaborator, used by witnesses. -/
def demoModel : Model where
  L := 2
  batch_norm := id
  project_features := id
  get_initial_lstm := fun f => (f, f)
  step := fun _ _ cv h c =>
    { logits := cv.map (fun _ => [0, 1, 0]),
      alpha := cv.map (fun _ => [1/2, 1/2]),
      hidden := h,
      cell := c }

theorem _train_timestep_count_witness :
    ([([1], [1, 2], "x"), ([2], [3, 4], "y")] : List RawExample) ≠ []
    ∧ (∀ ex ∈ ([([1], [1, 2], "x"), ([2], [3, 4], "y")] : List RawExample), ex.2.1.length = 2)
    ∧ (pack_collate_fn [([1], [1, 2], "x"), ([2], [3, 4], "y")]).packed_cap_vecs.batch_sizes
        = List.replicate 2 ([([1], [1, 2], "x"), ([2], [3, 4], "y")] : List RawExample).length :=
  ⟨by decide, by decide,
    (_train_timestep_count demoModel 0 (pack_collate_fn demoBatch)
      [([1], [1, 2], "x"), ([2], [3, 4], "y")] 2 (by decide) (by decide)).2.1⟩

/-! ### Accuracy bookkeeping (claim C4) -/

theorem countCorrect_le (logits : List Vec) (targets : List ℕ) :
    countCorrect logits targets ≤ logits.length := by
  induction logits generalizing targets with
  | nil => simp [countCorrect]
  | cons r rs ih =>
    cases targets with
    | nil => simp [countCorrect]
    | cons t ts =>
      have h := ih ts
      unfold countCorrect at h ⊢
      simp only [List.zipWith_cons_cons, List.sum_cons, List.length_cons]
      by_cases hc : argmaxIdx r = t <;> simp only [hc, if_pos, if_neg, ite_true, ite_false] <;>
        omega

theorem trainLoop_acc_le (m : Model) (nullIdx : ℕ) (f fp : List Vec) (cv : List ℕ) :
    ∀ (pairs : List (ℕ × ℕ)) (st : LoopState),
      (trainLoop m nullIdx f fp cv pairs st).acc ≤ st.acc + (pairs.map (fun p => p.2)).sum := by
  intro pairs
  induction pairs with
  | nil => intro st; simp [trainLoop]
  | cons p rest ih =>
    intro st
    obtain ⟨bi, bnext⟩ := p
    rw [trainLoop]
    refine le_trans (ih _) ?_
    dsimp only
    simp only [List.map_cons, List.sum_cons]
    have h1 : countCorrect
        ((m.step (f.take bi) (fp.take bi) ((cv.drop st.start_idx).take bi)
          (st.hidden.take bi) (st.cell.take bi)).logits.take bnext)
        ((cv.drop (st.start_idx + bi)).take bnext) ≤ bnext := by
      refine le_trans (countCorrect_le _ _) ?_
      rw [List.length_take]
      omega
    omega

theorem stepPairs_snd_sum (bs : List ℕ) :
    ((stepPairs bs).map (fun p => p.2)).sum = bs.tail.sum := by
  induction bs with
  | nil => rfl
  | cons b bs ih =>
    cases bs with
    | nil => rfl
    | cons c cs =>
      simp only [stepPairs, List.tail_cons, List.zip_cons_cons, List.map_cons,
        List.sum_cons] at ih ⊢
      omega

theorem nat_getD_zero_le_sum (l : List ℕ) : l.getD 0 0 ≤ l.sum := by
  cases l with
  | nil => simp
  | cons a l => simp

theorem tail_getD (l : List ℕ) (i : ℕ) : l.tail.getD i 0 = l.getD (i + 1) 0 := by
  cases l <;> rfl

theorem packBatchSizes_getD_full (seqs : List (List ℕ)) (t : ℕ)
    (h : ∀ s ∈ seqs, t < s.length) :
    (packBatchSizes seqs).getD t 0 = seqs.length := by
  rw [packBatchSizes_getD]
  have : seqs.filter (fun s => t < s.length) = seqs := by
    rw [List.filter_eq_self]
    intro s hs
    simp only [decide_eq_true_eq]
    exact h s hs
  rw [this]

theorem mem_sorted_cap_vecs {exs : List RawExample} {s : List ℕ}
    (hs : s ∈ (len_sorted_idx (exs.map (fun ex => ex.2.1))).map
        (fun i => (exs.map (fun ex => ex.2.1)).getD i [])) :
    ∃ ex ∈ exs, s = ex.2.1 := by
  have hscv := (len_sorted_cap_vecs_perm _).mem_iff.mp hs
  rcases List.mem_map.mp hscv with ⟨ex, hex, rfl⟩
  exact ⟨ex, hex, rfl⟩

theorem sorted_cap_vecs_length (exs : List RawExample) :
    ((len_sorted_idx (exs.map (fun ex => ex.2.1))).map
        (fun i => (exs.map (fun ex => ex.2.1)).getD i [])).length = exs.length := by
  rw [(len_sorted_cap_vecs_perm _).length_eq, List.length_map]

theorem collate_batch_sizes_getD_full (exs : List RawExample) (t : ℕ)
    (h : ∀ ex ∈ exs, t < ex.2.1.length) :
    (pack_collate_fn exs).packed_cap_vecs.batch_sizes.getD t 0 = exs.length := by
  have hsorted : ∀ s ∈ (len_sorted_idx (exs.map (fun ex => ex.2.1))).map
      (fun i => (exs.map (fun ex => ex.2.1)).getD i []), t < s.length := by
    intro s hs
    rcases mem_sorted_cap_vecs hs with ⟨ex, hex, rfl⟩
    exact h ex hex
  rw [show (pack_collate_fn exs).packed_cap_vecs.batch_sizes
      = packBatchSizes ((len_sorted_idx (exs.map (fun ex => ex.2.1))).map
          (fun i => (exs.map (fun ex => ex.2.1)).getD i [])) from rfl]
  rw [packBatchSizes_getD_full _ _ hsorted, sorted_cap_vecs_length]

/-- C4: for a non-empty batch all of whose token sequences have length at
least 2, the accuracy returned by _train is the loop's count of positions
whose argmax matches the target (each timestep restricted to the first
batch_sizes[i+1] rows) divided by sum(batch_sizes[1:]), the count never
exceeds that denominator, and the accuracy lies in [0, 1]. -/
theorem _train_accuracy (m : Model) (alpha_c : ℚ) (nullIdx : ℕ) (exs : List RawExample)
    (hne : exs ≠ []) (hlen : ∀ ex ∈ exs, 2 ≤ ex.2.1.length) :
    (_train m alpha_c nullIdx (pack_collate_fn exs)).2
        = ((train_loop_state m nullIdx (pack_collate_fn exs)).acc : ℚ)
          / (((pack_collate_fn exs).packed_cap_vecs.batch_sizes.tail.sum : ℕ) : ℚ)
    ∧ (train_loop_state m nullIdx (pack_collate_fn exs)).acc
        ≤ (pack_collate_fn exs).packed_cap_vecs.batch_sizes.tail.sum
    ∧ 0 ≤ (_train m alpha_c nullIdx (pack_collate_fn exs)).2
    ∧ (_train m alpha_c nullIdx (pack_collate_fn exs)).2 ≤ 1 := by
  have hpos : 0 < (pack_collate_fn exs).packed_cap_vecs.batch_sizes.tail.sum := by
    have h1 := collate_batch_sizes_getD_full exs 1
      (fun ex hex => by have := hlen ex hex; omega)
    have h2 := nat_getD_zero_le_sum (pack_collate_fn exs).packed_cap_vecs.batch_sizes.tail
    rw [tail_getD] at h2
    simp only [Nat.zero_add] at h2
    have hb : 0 < exs.length := List.length_pos.mpr hne
    omega
  have hacc : (train_loop_state m nullIdx (pack_collate_fn exs)).acc
      ≤ (pack_collate_fn exs).packed_cap_vecs.batch_sizes.tail.sum := by
    have h1 := trainLoop_acc_le m nullIdx
      (m.batch_norm (pack_collate_fn exs).features)
      (m.project_features (m.batch_norm (pack_collate_fn exs).features))
      (pack_collate_fn exs).packed_cap_vecs.data
      (stepPairs (pack_collate_fn exs).packed_cap_vecs.batch_sizes)
      { loss := 0, acc := 0, alphas := [],
        hidden := (m.get_initial_lstm (m.batch_norm (pack_collate_fn exs).features)).1,
        cell := (m.get_initial_lstm (m.batch_norm (pack_collate_fn exs).features)).2,
        start_idx := 0 }
    rw [stepPairs_snd_sum, Nat.zero_add] at h1
    exact h1
  have hfrac : (_train m alpha_c nullIdx (pack_collate_fn exs)).2
      = ((train_loop_state m nullIdx (pack_collate_fn exs)).acc : ℚ)
        / (((pack_collate_fn exs).packed_cap_vecs.batch_sizes.tail.sum : ℕ) : ℚ) := rfl
  refine ⟨hfrac, hacc, ?_, ?_⟩
  · rw [hfrac]
    exact div_nonneg (Nat.cast_nonneg _) (Nat.cast_nonneg _)
  · rw [hfrac]
    rw [div_le_one (by exact_mod_cast hpos)]
    exact_mod_cast hacc

theorem _train_accuracy_witness :
    demoBatch ≠ [] ∧ (∀ ex ∈ demoBatch, 2 ≤ ex.2.1.length)
    ∧ 0 ≤ (_train demoModel 0 0 (pack_collate_fn demoBatch)).2
    ∧ (_train demoModel 0 0 (pack_collate_fn demoBatch)).2 ≤ 1 :=
  ⟨by decide, by decide,
    (_train_accuracy demoModel 0 0 demoBatch (by decide) (by decide)).2.2.1,
    (_train_accuracy demoModel 0 0 demoBatch (by decide) (by decide)).2.2.2⟩

/-! ### Word-loss non-negativity and normalization (claim C5) -/

theorem celoss_nonneg (row : Vec) (t : ℕ) (ht : t < row.length) : 0 ≤ celoss row t := by
  unfold celoss
  rw [sub_nonneg]
  have hmem : Real.exp ((row.getD t 0 : ℚ) : ℝ) ∈ row.map (fun q : ℚ => Real.exp (q : ℝ)) := by
    simp only [List.mem_map]
    refine ⟨row.getD t 0, ?_, rfl⟩
    rw [List.getD_eq_getElem _ _ ht]
    exact List.getElem_mem ht
  have hall : ∀ x ∈ row.map (fun q : ℚ => Real.exp (q : ℝ)), (0 : ℝ) ≤ x := by
    intro x hx
    rcases List.mem_map.mp hx with ⟨q, _, rfl⟩
    exact (Real.exp_pos _).le
  have hsumge : Real.exp ((row.getD t 0 : ℚ) : ℝ)
      ≤ (row.map (fun q : ℚ => Real.exp (q : ℝ))).sum :=
    List.single_le_sum hall _ hmem
  calc ((row.getD t 0 : ℚ) : ℝ)
      = Real.log (Real.exp ((row.getD t 0 : ℚ) : ℝ)) := (Real.log_exp _).symm
    _ ≤ Real.log ((row.map (fun q : ℚ => Real.exp (q : ℝ))).sum) :=
        Real.log_le_log (Real.exp_pos _) hsumge

theorem word_criterion_nonneg {V : ℕ} (nullIdx : ℕ) (logits : List Vec) (targets : List ℕ)
    (hrows : ∀ row ∈ logits, row.length = V) (htargets : ∀ t ∈ targets, t < V) :
    0 ≤ word_criterion nullIdx logits targets := by
  induction logits generalizing targets with
  | nil => simp [word_criterion]
  | cons r rs ih =>
    cases targets with
    | nil => simp [word_criterion]
    | cons t ts =>
      have h1 : (0 : ℝ) ≤ if t = nullIdx then 0 else celoss r t := by
        by_cases hc : t = nullIdx
        · simp [hc]
        · rw [if_neg hc]
          refine celoss_nonneg r t ?_
          rw [hrows r (List.mem_cons_self _ _)]
          exact htargets t (List.mem_cons_self _ _)
      have h2 := ih ts (fun row hrow => hrows row (List.mem_cons_of_mem _ hrow))
        (fun x hx => htargets x (List.mem_cons_of_mem _ hx))
      unfold word_criterion at h2 ⊢
      simp only [List.zipWith_cons_cons, List.sum_cons]
      exact add_nonneg h1 h2

theorem trainLoop_loss_mono (m : Model) (nullIdx V : ℕ) (f fp : List Vec) (cv : List ℕ)
    (hrows : ∀ f' fp' cv' h' c', ∀ row ∈ (m.step f' fp' cv' h' c').logits, row.length = V)
    (htok : ∀ t ∈ cv, t < V) :
    ∀ (pairs : List (ℕ × ℕ)) (st : LoopState),
      st.loss ≤ (trainLoop m nullIdx f fp cv pairs st).loss := by
  intro pairs
  induction pairs with
  | nil => intro st; exact le_refl _
  | cons p rest ih =>
    intro st
    obtain ⟨bi, bnext⟩ := p
    rw [trainLoop]
    refine le_trans ?_ (ih _)
    dsimp only
    have hwc : 0 ≤ word_criterion nullIdx
        ((m.step (f.take bi) (fp.take bi) ((cv.drop st.start_idx).take bi)
          (st.hidden.take bi) (st.cell.take bi)).logits.take bnext)
        ((cv.drop (st.start_idx + bi)).take bnext) := by
      refine word_criterion_nonneg (V := V) nullIdx _ _ ?_ ?_
      · intro row hrow
        exact hrows _ _ _ _ _ row (List.take_subset _ _ hrow)
      · intro x hx
        exact htok x (List.drop_subset _ _ (List.take_subset _ _ hx))
    linarith

theorem packData_mem {seqs : List (List ℕ)} {x : ℕ} (hx : x ∈ packData seqs) :
    ∃ s ∈ seqs, x ∈ s := by
  unfold packData at hx
  rw [List.mem_flatten] at hx
  rcases hx with ⟨chunk, hchunk, hxc⟩
  rcases List.mem_map.mp hchunk with ⟨t, _, rfl⟩
  rcases List.mem_map.mp hxc with ⟨s, hsf, rfl⟩
  have hs : s ∈ seqs := List.mem_of_mem_filter hsf
  have htlen : t < s.length := by simpa using List.of_mem_filter hsf
  refine ⟨s, hs, ?_⟩
  rw [List.getD_eq_getElem _ _ htlen]
  exact List.getElem_mem htlen

/-- C5: with the alpha regularization coefficient equal to 0, the loss
returned by _train on a non-empty assembled batch is the timestep loop's
accumulated word cross-entropy (each timestep: criterion over the first
batch_sizes[i+1] logits against the packed tokens at timestep i+1 with the
padding id ignored, summed over examples) divided by batch_sizes[0], which
equals the initial batch size; in particular the returned loss is
non-negative.  V is the vocabulary size: the model emits logit rows of
length V and every token id is below V (CrossEntropyLoss requires targets
below the class count). -/
theorem _train_loss_formula (m : Model) (nullIdx V : ℕ) (exs : List RawExample)
    (hne : exs ≠ []) (hseq : ∀ ex ∈ exs, ex.2.1 ≠ [])
    (hrows : ∀ f fp cv h c, ∀ row ∈ (m.step f fp cv h c).logits, row.length = V)
    (htok : ∀ ex ∈ exs, ∀ t ∈ ex.2.1, t < V) :
    (_train m 0 nullIdx (pack_collate_fn exs)).1
        = (train_loop_state m nullIdx (pack_collate_fn exs)).loss
          / (((pack_collate_fn exs).packed_cap_vecs.batch_sizes.getD 0 0 : ℕ) : ℝ)
    ∧ (pack_collate_fn exs).packed_cap_vecs.batch_sizes.getD 0 0 = exs.length
    ∧ 0 ≤ (train_loop_state m nullIdx (pack_collate_fn exs)).loss
    ∧ 0 ≤ (_train m 0 nullIdx (pack_collate_fn exs)).1 := by
  have htokdata : ∀ t ∈ (pack_collate_fn exs).packed_cap_vecs.data, t < V := by
    intro x hx
    have hx' : x ∈ packData ((len_sorted_idx (exs.map (fun ex => ex.2.1))).map
        (fun i => (exs.map (fun ex => ex.2.1)).getD i [])) := hx
    rcases packData_mem hx' with ⟨s, hs, hxs⟩
    rcases mem_sorted_cap_vecs hs with ⟨ex, hex, rfl⟩
    exact htok ex hex x hxs
  have hloss : 0 ≤ (train_loop_state m nullIdx (pack_collate_fn exs)).loss := by
    have h1 := trainLoop_loss_mono m nullIdx V
      (m.batch_norm (pack_collate_fn exs).features)
      (m.project_features (m.batch_norm (pack_collate_fn exs).features))
      (pack_collate_fn exs).packed_cap_vecs.data hrows htokdata
      (stepPairs (pack_collate_fn exs).packed_cap_vecs.batch_sizes)
      { loss := 0, acc := 0, alphas := [],
        hidden := (m.get_initial_lstm (m.batch_norm (pack_collate_fn exs).features)).1,
        cell := (m.get_initial_lstm (m.batch_norm (pack_collate_fn exs).features)).2,
        start_idx := 0 }
    exact h1
  have hfrac : (_train m 0 nullIdx (pack_collate_fn exs)).1
      = (train_loop_state m nullIdx (pack_collate_fn exs)).loss
        / (((pack_collate_fn exs).packed_cap_vecs.batch_sizes.getD 0 0 : ℕ) : ℝ) := by
    simp only [_train, lt_self_iff_false, if_false]
  refine ⟨hfrac, ?_, hloss, ?_⟩
  · exact collate_batch_sizes_getD_full exs 0
      (fun ex hex => List.length_pos.mpr (hseq ex hex))
  · rw [hfrac]
    exact div_nonneg hloss (Nat.cast_nonneg _)

theorem _train_loss_formula_witness :
    (∀ ex ∈ ([([1], [1, 2], "x"), ([2], [0, 1, 2], "y")] : List RawExample), ex.2.1 ≠ [])
    ∧ 0 ≤ (_train demoModel 0 0
        (pack_collate_fn [([1], [1, 2], "x"), ([2], [0, 1, 2], "y")])).1 :=
  ⟨by decide,
    (_train_loss_formula demoModel 0 3 [([1], [1, 2], "x"), ([2], [0, 1, 2], "y")]
      (by decide) (by decide)
      (by
        intro f fp cv h c row hrow
        simp only [demoModel] at hrow
        rcases List.mem_map.mp hrow with ⟨a, ha, rfl⟩
        rfl)
      (by decide)).2.2.2⟩

/-! ### Attention-coverage regularization (claim C6): list index lemmas -/

theorem getD_replicate_zero (n i : ℕ) : (List.replicate n (0 : ℚ)).getD i 0 = 0 := by
  by_cases h : i < n
  · rw [List.getD_eq_getElem _ _ (by simpa using h)]
    simp
  · rw [List.getD_eq_default _ _ (by simpa using not_lt.mp h)]

theorem getD_replicate_lt {n i : ℕ} (x : ℚ) (h : i < n) :
    (List.replicate n x).getD i 0 = x := by
  rw [List.getD_eq_getElem _ _ (by simpa using h)]
  simp

theorem getD_map_lt {α β : Type} (f : α → β) (l : List α) (i : ℕ) (h : i < l.length)
    (d : β) (da : α) : (l.map f).getD i d = f (l.getD i da) := by
  rw [List.getD_eq_getElem _ _ (by simpa using h), List.getElem_map,
    List.getD_eq_getElem _ _ h]

theorem getD_range_map {α : Type} (f : ℕ → α) (n i : ℕ) (h : i < n) (d : α) :
    ((List.range n).map f).getD i d = f i := by
  rw [getD_map_lt f _ i (by simpa using h) d 0]
  congr 1
  rw [List.getD_eq_getElem _ _ (by simpa using h), List.getElem_range]

theorem getD_append_add {α : Type} (l1 l2 : List α) (d : α) (i : ℕ) :
    (l1 ++ l2).getD (l1.length + i) d = l2.getD i d := by
  rw [List.getD_eq_getElem?_getD, List.getD_eq_getElem?_getD,
    List.getElem?_append_right (Nat.le_add_right _ _)]
  congr 2
  omega

theorem vecAdd_getD (u v : Vec) (h : u.length = v.length) (l : ℕ) :
    (vecAdd u v).getD l 0 = u.getD l 0 + v.getD l 0 := by
  by_cases hl : l < u.length
  · rw [List.getD_eq_getElem _ _ (by simp [vecAdd]; omega)]
    unfold vecAdd
    rw [List.getElem_zipWith, List.getD_eq_getElem _ _ hl,
      List.getD_eq_getElem _ _ (by omega)]
  · rw [List.getD_eq_default _ _ (by simp [vecAdd]; omega),
      List.getD_eq_default _ _ (by omega), List.getD_eq_default _ _ (by omega)]
    simp

theorem vecAdd_length (u v : Vec) (h : u.length = v.length) :
    (vecAdd u v).length = u.length := by
  simp [vecAdd]
  omega

theorem zipWith_sum_finset {α β : Type} (g : α → β → ℚ) (da : α) (db : β) :
    ∀ (n : ℕ) (a : List α) (b : List β), a.length = n → b.length = n →
      (List.zipWith g a b).sum = ∑ i ∈ Finset.range n, g (a.getD i da) (b.getD i db) := by
  intro n
  induction n with
  | zero =>
    intro a b ha hb
    have ha' : a = [] := List.length_eq_zero.mp ha
    have hb' : b = [] := List.length_eq_zero.mp hb
    subst ha'
    subst hb'
    simp
  | succ n ih =>
    intro a b ha hb
    cases a with
    | nil => simp at ha
    | cons x xs =>
      cases b with
      | nil => simp at hb
      | cons y ys =>
        simp only [List.zipWith_cons_cons, List.sum_cons]
        rw [ih xs ys (by simpa using ha) (by simpa using hb), Finset.sum_range_succ']
        simp only [List.getD_cons_zero, List.getD_cons_succ]
        exact add_comm _ _

theorem foldr_max_le {l : List ℕ} {M : ℕ} (h : ∀ x ∈ l, x ≤ M) : l.foldr max 0 ≤ M := by
  induction l with
  | nil => simp
  | cons a l ih =>
    simp only [List.foldr_cons]
    exact max_le (h a (List.mem_cons_self _ _)) (ih (fun x hx => h x (List.mem_cons_of_mem _ hx)))

theorem foldr_max_eq {l : List ℕ} {M : ℕ} (hub : ∀ x ∈ l, x ≤ M) (hmem : M ∈ l) :
    l.foldr max 0 = M := by
  induction l with
  | nil => cases hmem
  | cons a l ih =>
    simp only [List.foldr_cons]
    rcases List.mem_cons.mp hmem with rfl | hm
    · have := foldr_max_le (fun x hx => hub x (List.mem_cons_of_mem _ hx))
      omega
    · have h1 := ih (fun x hx => hub x (List.mem_cons_of_mem _ hx)) hm
      have h2 := hub a (List.mem_cons_self _ _)
      omega

theorem foldr_vecAdd_length (L : ℕ) (rows : List Vec) (hr : ∀ r ∈ rows, r.length = L) :
    (rows.foldr vecAdd (List.replicate L 0)).length = L := by
  induction rows with
  | nil => simp
  | cons r rows ih =>
    have ih' := ih (fun x hx => hr x (List.mem_cons_of_mem _ hx))
    simp only [List.foldr_cons]
    rw [vecAdd_length _ _ (by rw [ih', hr r (List.mem_cons_self _ _)])]
    exact hr r (List.mem_cons_self _ _)

theorem foldr_vecAdd_getD (L : ℕ) (rows : List Vec) (hr : ∀ r ∈ rows, r.length = L)
    (l : ℕ) :
    (rows.foldr vecAdd (List.replicate L 0)).getD l 0
      = ∑ t ∈ Finset.range rows.length, (rows.getD t []).getD l 0 := by
  induction rows with
  | nil => simp [getD_replicate_zero]
  | cons r rows ih =>
    have hr' : ∀ x ∈ rows, x.length = L := fun x hx => hr x (List.mem_cons_of_mem _ hx)
    simp only [List.foldr_cons, List.length_cons]
    rw [vecAdd_getD _ _ (by rw [foldr_vecAdd_length L rows hr', hr r (List.mem_cons_self _ _)]),
      ih hr', Finset.sum_range_succ']
    simp only [List.getD_cons_zero, List.getD_cons_succ]
    exact add_comm _ _

/-- One scalar of the zero-padded stack of per-timestep attention matrices:
the weight that example e put on location l at timestep t, or 0 when the
example had already dropped out at that timestep. -/
def alphaEntry (alphas : List (List Vec)) (t e l : ℕ) : ℚ :=
  ((alphas.getD t []).getD e []).getD l 0

/-- The attention-coverage penalty in the closed form of the specification:
sum over examples and spatial locations of the squared difference between
the per-location attention mass accumulated over all timesteps (dropped-out
timesteps contributing zero) and sequenceLength / L. -/
def coverage_penalty (L : ℕ) (alphas : List (List Vec)) (seq_lens : List ℚ) : ℚ :=
  ∑ e ∈ Finset.range seq_lens.length, ∑ l ∈ Finset.range L,
    ((∑ t ∈ Finset.range alphas.length, alphaEntry alphas t e l)
      - seq_lens.getD e 0 / (L : ℚ)) ^ 2

theorem padded_entry_eq (L : ℕ) (alphas : List (List Vec)) (t e l : ℕ) :
    ((alphas.getD t []).getD e (List.replicate L 0)).getD l 0 = alphaEntry alphas t e l := by
  unfold alphaEntry
  by_cases he : e < (alphas.getD t []).length
  · rw [List.getD_eq_getElem _ _ he, List.getD_eq_getElem _ _ he]
  · rw [List.getD_eq_default _ _ (not_lt.mp he), List.getD_eq_default _ _ (not_lt.mp he),
      getD_replicate_zero]
    rfl

theorem mse_pad_eq_coverage (L : ℕ) (alphas : List (List Vec)) (seq_lens : List ℚ)
    (hrows : ∀ a ∈ alphas, ∀ r ∈ a, r.length = L)
    (hmax : (alphas.map List.length).foldr max 0 = seq_lens.length) :
    mseLossSum (tsum1 L (pad_sequence alphas (List.replicate L 0)))
        (seq_lens.map (fun s => List.replicate L (s / (L : ℚ))))
      = coverage_penalty L alphas seq_lens := by
  have hts : tsum1 L (pad_sequence alphas (List.replicate L 0))
      = (List.range seq_lens.length).map (fun e =>
          (alphas.map (fun a => a.getD e (List.replicate L 0))).foldr vecAdd
            (List.replicate L 0)) := by
    unfold pad_sequence tsum1
    rw [hmax, List.map_map]
    rfl
  rw [hts]
  unfold mseLossSum coverage_penalty
  rw [zipWith_sum_finset _ [] [] seq_lens.length _ _ (by simp) (by simp)]
  refine Finset.sum_congr rfl ?_
  intro e he
  have heB : e < seq_lens.length := Finset.mem_range.mp he
  rw [getD_range_map _ _ _ heB, getD_map_lt _ seq_lens e heB _ 0]
  have hrowsE : ∀ x ∈ alphas.map (fun a => a.getD e (List.replicate L 0)), x.length = L := by
    intro x hx
    rcases List.mem_map.mp hx with ⟨a, ha, rfl⟩
    by_cases hcase : e < a.length
    · rw [List.getD_eq_getElem _ _ hcase]
      exact hrows a ha _ (List.getElem_mem hcase)
    · rw [List.getD_eq_default _ _ (not_lt.mp hcase)]
      simp
  rw [zipWith_sum_finset _ 0 0 L _ _ (foldr_vecAdd_length L _ hrowsE) (by simp)]
  refine Finset.sum_congr rfl ?_
  intro l hl
  have hlL : l < L := Finset.mem_range.mp hl
  have hsum : (∑ t ∈ Finset.range (alphas.map
        (fun a => a.getD e (List.replicate L 0))).length,
        (((alphas.map (fun a => a.getD e (List.replicate L 0))).getD t []).getD l 0))
      = ∑ t ∈ Finset.range alphas.length, alphaEntry alphas t e l := by
    rw [List.length_map]
    refine Finset.sum_congr rfl ?_
    intro t ht
    rw [getD_map_lt _ alphas t (Finset.mem_range.mp ht) _ []]
    exact padded_entry_eq L alphas t e l
  rw [foldr_vecAdd_getD L _ hrowsE, getD_replicate_lt _ hlL, hsum]

/-- The state update performed by one iteration of the timestep loop
(the body of for i in range(len(batch_sizes)-1)). -/
noncomputable def loopStep (m : Model) (nullIdx : ℕ) (f fp : List Vec) (cv : List ℕ)
    (bi bnext : ℕ) (st : LoopState) : LoopState :=
  let end_idx := st.start_idx + bi
  let curr_cap_vecs := (cv.drop st.start_idx).take bi
  let out := m.step (f.take bi) (fp.take bi) curr_cap_vecs (st.hidden.take bi) (st.cell.take bi)
  let target := (cv.drop end_idx).take bnext
  { loss := st.loss + word_criterion nullIdx (out.logits.take bnext) target,
    acc := st.acc + countCorrect (out.logits.take bnext) target,
    alphas := st.alphas ++ [out.alpha],
    hidden := out.hidden,
    cell := out.cell,
    start_idx := end_idx }

theorem trainLoop_cons (m : Model) (nullIdx : ℕ) (f fp : List Vec) (cv : List ℕ)
    (bi bnext : ℕ) (rest : List (ℕ × ℕ)) (st : LoopState) :
    trainLoop m nullIdx f fp cv ((bi, bnext) :: rest) st
      = trainLoop m nullIdx f fp cv rest (loopStep m nullIdx f fp cv bi bnext st) := rfl

theorem trainLoop_alphas_spec (m : Model) (nullIdx : ℕ) (f fp : List Vec) (cv : List ℕ)
    (halpha : ∀ f' fp' cv' h' c', ((m.step f' fp' cv' h' c').alpha).length = cv'.length)
    (halpharows : ∀ f' fp' cv' h' c', ∀ r ∈ (m.step f' fp' cv' h' c').alpha, r.length = m.L) :
    ∀ (pairs : List (ℕ × ℕ)) (st : LoopState),
      st.start_idx + (pairs.map (fun p => p.1)).sum ≤ cv.length →
      ∃ suf, (trainLoop m nullIdx f fp cv pairs st).alphas = st.alphas ++ suf
        ∧ suf.length = pairs.length
        ∧ (∀ k, k < pairs.length → (suf.getD k []).length = (pairs.getD k (0, 0)).1)
        ∧ (∀ a ∈ suf, ∀ r ∈ a, r.length = m.L) := by
  intro pairs
  induction pairs with
  | nil =>
    intro st _
    exact ⟨[], by simp [trainLoop], rfl,
      fun k hk => absurd hk (Nat.not_lt_zero k), by simp⟩
  | cons p rest ih =>
    intro st hfit
    obtain ⟨bi, bnext⟩ := p
    simp only [List.map_cons, List.sum_cons] at hfit
    rw [trainLoop_cons]
    obtain ⟨suf', hsuf', hlen', hget', hrows''⟩ :=
      ih (loopStep m nullIdx f fp cv bi bnext st)
        (by
          show st.start_idx + bi + ((rest.map (fun p => p.1)).sum) ≤ cv.length
          omega)
    refine ⟨(m.step (f.take bi) (fp.take bi) ((cv.drop st.start_idx).take bi)
        (st.hidden.take bi) (st.cell.take bi)).alpha :: suf', ?_, ?_, ?_, ?_⟩
    · rw [hsuf']
      show (st.alphas ++ [(m.step (f.take bi) (fp.take bi) ((cv.drop st.start_idx).take bi)
          (st.hidden.take bi) (st.cell.take bi)).alpha]) ++ suf' = _
      rw [List.append_assoc]
      rfl
    · simp [hlen']
    · intro k hk
      cases k with
      | zero =>
        simp only [List.getD_cons_zero]
        rw [halpha, List.length_take, List.length_drop]
        omega
      | succ k =>
        simp only [List.getD_cons_succ]
        exact hget' k (by simpa using hk)
    · intro a ha
      rcases List.mem_cons.mp ha with rfl | ha'
      · exact halpharows _ _ _ _ _
      · exact hrows'' a ha'

theorem packData_length (seqs : List (List ℕ)) :
    (packData seqs).length = (packBatchSizes seqs).sum := by
  simp only [packData, packBatchSizes, List.length_flatten, List.map_map]
  refine congrArg List.sum (List.map_congr_left ?_)
  intro t _
  simp

theorem stepPairs_fst_sum_le (bs : List ℕ) :
    ((stepPairs bs).map (fun p => p.1)).sum ≤ bs.sum := by
  induction bs with
  | nil => simp [stepPairs]
  | cons b bs ih =>
    cases bs with
    | nil => simp [stepPairs]
    | cons c cs =>
      simp only [stepPairs, List.tail_cons, List.zip_cons_cons, List.map_cons,
        List.sum_cons] at ih ⊢
      omega

theorem stepPairs_getD_fst (bs : List ℕ) (k : ℕ) (hk : k < (stepPairs bs).length) :
    ((stepPairs bs).getD k (0, 0)).1 = bs.getD k 0 := by
  have hk' : k < bs.length := by
    simp only [stepPairs, List.length_zip] at hk
    omega
  unfold stepPairs at hk ⊢
  rw [List.getD_eq_getElem _ _ hk, List.getElem_zip, List.getD_eq_getElem _ _ hk']

theorem packBatchSizes_getD_le_head (seqs : List (List ℕ)) (k : ℕ) :
    (packBatchSizes seqs).getD k 0 ≤ (packBatchSizes seqs).getD 0 0 := by
  rw [packBatchSizes_getD, packBatchSizes_getD]
  refine filter_length_mono _ _ _ ?_
  intro s _ hs
  simp only [decide_eq_true_eq] at hs ⊢
  omega

theorem collate_seq_lens_length (exs : List RawExample) :
    (pack_collate_fn exs).seq_lens.length = exs.length := by
  rw [show (pack_collate_fn exs).seq_lens
      = ((len_sorted_idx (exs.map (fun ex => ex.2.1))).map
          (fun i => (exs.map (fun ex => ex.2.1)).getD i [])).map
            (fun cv => (cv.length : ℚ)) from rfl]
  rw [List.length_map, sorted_cap_vecs_length]

/-- C6: with a positive alpha regularization coefficient, _train returns
(wordLoss + alpha_c * penalty) / batch_sizes[0], where the penalty is the
sum over examples and spatial locations of the squared difference between
the attention weights summed over all timesteps (dropped-out examples
contributing zero through the zero-padded alignment) and
sequenceLength / L replicated across the L locations. -/
theorem _train_alpha_reg (m : Model) (alpha_c : ℚ) (nullIdx : ℕ) (exs : List RawExample)
    (hac : 0 < alpha_c) (hne : exs ≠ []) (hlen : ∀ ex ∈ exs, 2 ≤ ex.2.1.length)
    (halpha : ∀ f fp cv h c, ((m.step f fp cv h c).alpha).length = cv.length)
    (halpharows : ∀ f fp cv h c, ∀ r ∈ (m.step f fp cv h c).alpha, r.length = m.L) :
    (_train m alpha_c nullIdx (pack_collate_fn exs)).1
      = ((train_loop_state m nullIdx (pack_collate_fn exs)).loss
          + ((alpha_c * coverage_penalty m.L
                (train_loop_state m nullIdx (pack_collate_fn exs)).alphas
                (pack_collate_fn exs).seq_lens : ℚ) : ℝ))
        / (((pack_collate_fn exs).packed_cap_vecs.batch_sizes.getD 0 0 : ℕ) : ℝ) := by
  have hfit : (0 : ℕ) + ((stepPairs (pack_collate_fn exs).packed_cap_vecs.batch_sizes).map
      (fun p => p.1)).sum ≤ (pack_collate_fn exs).packed_cap_vecs.data.length := by
    rw [show (pack_collate_fn exs).packed_cap_vecs.data
        = packData ((len_sorted_idx (exs.map (fun ex => ex.2.1))).map
            (fun i => (exs.map (fun ex => ex.2.1)).getD i [])) from rfl, packData_length]
    have h1 := stepPairs_fst_sum_le (pack_collate_fn exs).packed_cap_vecs.batch_sizes
    have h2 : (pack_collate_fn exs).packed_cap_vecs.batch_sizes.sum
        = (packBatchSizes ((len_sorted_idx (exs.map (fun ex => ex.2.1))).map
            (fun i => (exs.map (fun ex => ex.2.1)).getD i []))).sum := rfl
    omega
  obtain ⟨suf, hsuf, hsuflen, hsufget, hsufrows⟩ := trainLoop_alphas_spec m nullIdx
    (m.batch_norm (pack_collate_fn exs).features)
    (m.project_features (m.batch_norm (pack_collate_fn exs).features))
    (pack_collate_fn exs).packed_cap_vecs.data halpha halpharows
    (stepPairs (pack_collate_fn exs).packed_cap_vecs.batch_sizes)
    { loss := 0, acc := 0, alphas := [],
      hidden := (m.get_initial_lstm (m.batch_norm (pack_collate_fn exs).features)).1,
      cell := (m.get_initial_lstm (m.batch_norm (pack_collate_fn exs).features)).2,
      start_idx := 0 }
    hfit
  have halphasEq : (train_loop_state m nullIdx (pack_collate_fn exs)).alphas = suf := hsuf
  have hB0 : (pack_collate_fn exs).packed_cap_vecs.batch_sizes.getD 0 0 = exs.length :=
    collate_batch_sizes_getD_full exs 0 (fun ex hex => by have := hlen ex hex; omega)
  have hTpos : 1 ≤ (stepPairs (pack_collate_fn exs).packed_cap_vecs.batch_sizes).length := by
    rw [stepPairs_length]
    rw [show (pack_collate_fn exs).packed_cap_vecs.batch_sizes
        = packBatchSizes ((len_sorted_idx (exs.map (fun ex => ex.2.1))).map
            (fun i => (exs.map (fun ex => ex.2.1)).getD i [])) from rfl,
      packBatchSizes_length]
    obtain ⟨ex0, hex0⟩ := List.exists_mem_of_ne_nil exs hne
    have hmem0 : ex0.2.1 ∈ (len_sorted_idx (exs.map (fun ex => ex.2.1))).map
        (fun i => (exs.map (fun ex => ex.2.1)).getD i []) :=
      (len_sorted_cap_vecs_perm _).mem_iff.mpr
        (List.mem_map.mpr ⟨ex0, hex0, rfl⟩)
    have h1 := length_le_maxSeqLen hmem0
    have h2 := hlen ex0 hex0
    omega
  have hentry : ∀ k, k < suf.length → (suf.getD k []).length
      = (pack_collate_fn exs).packed_cap_vecs.batch_sizes.getD k 0 := by
    intro k hk
    rw [hsufget k (hsuflen ▸ hk)]
    exact stepPairs_getD_fst _ k (hsuflen ▸ hk)
  have hmax : (suf.map List.length).foldr max 0 = (pack_collate_fn exs).seq_lens.length := by
    rw [collate_seq_lens_length]
    refine foldr_max_eq ?_ ?_
    · intro x hx
      rcases List.mem_map.mp hx with ⟨a, ha, rfl⟩
      rcases List.mem_iff_getElem.mp ha with ⟨k, hk, rfl⟩
      have h1 := hentry k hk
      rw [List.getD_eq_getElem _ _ hk] at h1
      rw [h1]
      have h2 : (pack_collate_fn exs).packed_cap_vecs.batch_sizes.getD k 0
          ≤ (pack_collate_fn exs).packed_cap_vecs.batch_sizes.getD 0 0 :=
        packBatchSizes_getD_le_head _ k
      omega
    · have h0 : 0 < suf.length := by omega
      have h1 := hentry 0 h0
      refine List.mem_map.mpr ⟨suf.getD 0 [], ?_, ?_⟩
      · rw [List.getD_eq_getElem _ _ h0]
        exact List.getElem_mem h0
      · rw [h1, hB0]
  have hreg := mse_pad_eq_coverage m.L suf (pack_collate_fn exs).seq_lens hsufrows hmax
  have hif : (_train m alpha_c nullIdx (pack_collate_fn exs)).1
      = ((train_loop_state m nullIdx (pack_collate_fn exs)).loss
          + ((alpha_c * mseLossSum
              (tsum1 m.L (pad_sequence
                (train_loop_state m nullIdx (pack_collate_fn exs)).alphas
                (List.replicate m.L 0)))
              ((pack_collate_fn exs).seq_lens.map
                (fun s => List.replicate m.L (s / (m.L : ℚ)))) : ℚ) : ℝ))
        / (((pack_collate_fn exs).packed_cap_vecs.batch_sizes.getD 0 0 : ℕ) : ℝ) := by
    simp only [_train]
    rw [if_pos hac]
  rw [hif, halphasEq, hreg]

theorem _train_alpha_reg_witness :
    (0 : ℚ) < 1 ∧ demoBatch ≠ [] ∧ (∀ ex ∈ demoBatch, 2 ≤ ex.2.1.length)
    ∧ (_train demoModel 1 0 (pack_collate_fn demoBatch)).1
        = ((train_loop_state demoModel 0 (pack_collate_fn demoBatch)).loss
            + ((1 * coverage_penalty demoModel.L
                  (train_loop_state demoModel 0 (pack_collate_fn demoBatch)).alphas
                  (pack_collate_fn demoBatch).seq_lens : ℚ) : ℝ))
          / (((pack_collate_fn demoBatch).packed_cap_vecs.batch_sizes.getD 0 0 : ℕ) : ℝ) :=
  ⟨by norm_num, by decide, by decide,
    _train_alpha_reg demoModel 1 0 demoBatch (by norm_num) (by decide) (by decide)
      (by intro f fp cv h c; simp [demoModel])
      (by
        intro f fp cv h c r hr
        simp only [demoModel, List.mem_map] at hr
        rcases hr with ⟨a, ha, rfl⟩
        rfl)⟩

/-! ### Checkpoint manager and solver lifecycle (claims C2, C7, C8, C9) -/

/-- A state dict (model or optimizer parameters), opaque to the solver. -/
abbrev StateDict := List ℚ

/-- The dictionary torch.save writes (solver.py lines 98-104). -/
structure Checkpoint where
  epoch : ℕ
  iteration : ℕ
  model_state_dict : StateDict
  optimizer_state_dict : StateDict
  loss : ℚ
  deriving DecidableEq, Repr

/-- What the filesystem holds at one checkpoint path. -/
inductive FileContent
  | missing
  | corrupt
  | valid (c : Checkpoint)
  deriving DecidableEq, Repr

/-- The checkpoint directory, keyed by iteration number: _save writes
os.path.join(checkpoint_dir, str(iteration) + '.pth'), so distinct
iterations name distinct files. -/
abbrev CheckpointDir := ℕ → FileContent

def empty_dir : CheckpointDir := fun _ => FileContent.missing

/-- The solver attributes touched by checkpointing: the external model's
state dict, the optimizer attribute (None when the if/elif of __init__
matched no known update rule and the attribute was never set, line 69-73)
with its state dict, and start_iter. -/
structure SolverState where
  model_state : StateDict
  optimizer : Option StateDict
  start_iter : ℕ
  deriving DecidableEq, Repr

/-- _save (solver.py lines 97-104): torch.save of the five-field dict to
the file named by the iteration. -/
def _save (model_state optimizer_state : StateDict) (epoch iteration : ℕ) (loss : ℚ)
    (dir : CheckpointDir) : CheckpointDir :=
  fun p =>
    if p = iteration then
      FileContent.valid
        { epoch := epoch, iteration := iteration, model_state_dict := model_state,
          optimizer_state_dict := optimizer_state, loss := loss }
    else dir p

inductive LoadError
  | file_not_found
  | corrupt_file
  | missing_optimizer
  deriving DecidableEq, Repr

/-- torch.load: raises on a missing or unreadable file. -/
def torch_load (dir : CheckpointDir) (path : ℕ) : Except LoadError Checkpoint :=
  match dir path with
  | FileContent.missing => Except.error LoadError.file_not_found
  | FileContent.corrupt => Except.error LoadError.corrupt_file
  | FileContent.valid c => Except.ok c

/-- _load (solver.py lines 106-110): torch.load, then restore the model
state dict, then the optimizer state dict (an AttributeError when the
optimizer attribute was never set), then start_iter := iteration + 1.
An error aborts the construction, so no solver state is produced. -/
def _load (s : SolverState) (dir : CheckpointDir) (path : ℕ) :
    Except LoadError SolverState :=
  match torch_load dir path with
  | Except.error e => Except.error e
  | Except.ok c =>
      match s.optimizer with
      | none => Except.error LoadError.missing_optimizer
      | some _ => Except.ok
          { model_state := c.model_state_dict,
            optimizer := some c.optimizer_state_dict,
            start_iter := c.iteration + 1 }

/-- Optimizer selection of __init__ (lines 69-73): an if/elif with no else
branch, so an unknown update rule leaves self.optimizer unset.  A freshly
constructed optimizer's state dict is modelled as []. -/
def select_optimizer (rule : String) : Option StateDict :=
  if rule = "adam" then some []
  else if rule = "rmsprop" then some []
  else none

structure InitConfig where
  optimizer_rule : String
  checkpoint : Option ℕ
  deriving DecidableEq, Repr

/-- The construction-time behaviour of CaptioningSolver.__init__ relevant
to the optimizer and checkpoint options (lines 69-93): select the
optimizer, then either _load the supplied checkpoint (whose exceptions
abort construction) or set start_iter := 1.  start_iter = 0 stands for the
not-yet-assigned attribute. -/
def solver_init (model_state : StateDict) (cfg : InitConfig) (dir : CheckpointDir) :
    Except LoadError SolverState :=
  let s0 : SolverState :=
    { model_state := model_state, optimizer := select_optimizer cfg.optimizer_rule,
      start_iter := 0 }
  match cfg.checkpoint with
  | some p => _load s0 dir p
  | none => Except.ok { s0 with start_iter := 1 }

/-- C2: loading the file produced by _save(epoch, iteration, loss) restores
exactly the model and optimizer state dicts that were saved and sets
start_iter to iteration + 1, whatever state the loading solver is in. -/
theorem checkpoint_roundtrip (ms os ms2 os2 : StateDict) (k e i : ℕ) (l : ℚ)
    (dir : CheckpointDir) :
    _load { model_state := ms2, optimizer := some os2, start_iter := k }
        (_save ms os e i l dir) i
      = Except.ok { model_state := ms, optimizer := some os, start_iter := i + 1 } := by
  unfold _load torch_load _save
  simp

/-- C7 as stated is false on the code: constructing with the unsupported
update rule sgd and no checkpoint succeeds and yields a solver object
(with no optimizer attribute), rather than failing at construction. -/
theorem solver_init_unknown_rule_counterexample :
    solver_init [] { optimizer_rule := "sgd", checkpoint := none } empty_dir
      = Except.ok { model_state := [], optimizer := none, start_iter := 1 } := by
  rfl

/-- C7 (amended): an optimizer-choice string other than adam or rmsprop
leaves self.optimizer unset; construction nevertheless succeeds whenever
no checkpoint is supplied (the failure is deferred to the first optimizer
use), and fails only when a valid checkpoint is supplied, at the
optimizer-state restore. -/
theorem solver_init_unknown_rule (ms : StateDict) (rule : String) (dir : CheckpointDir)
    (h1 : rule ≠ "adam") (h2 : rule ≠ "rmsprop") :
    solver_init ms { optimizer_rule := rule, checkpoint := none } dir
        = Except.ok { model_state := ms, optimizer := none, start_iter := 1 }
    ∧ (∀ p c, dir p = FileContent.valid c →
        solver_init ms { optimizer_rule := rule, checkpoint := some p } dir
          = Except.error LoadError.missing_optimizer) := by
  have hsel : select_optimizer rule = none := by
    unfold select_optimizer
    rw [if_neg h1, if_neg h2]
  constructor
  · simp [solver_init, hsel]
  · intro p c hc
    simp [solver_init, _load, torch_load, hsel, hc]

theorem solver_init_unknown_rule_witness :
    ("sgd" : String) ≠ "adam" ∧ ("sgd" : String) ≠ "rmsprop"
    ∧ solver_init [] { optimizer_rule := "sgd", checkpoint := none } empty_dir
        = Except.ok { model_state := [], optimizer := none, start_iter := 1 } :=
  ⟨by decide, by decide,
    (solver_init_unknown_rule [] "sgd" empty_dir (by decide) (by decide)).1⟩

/-- C8: when a checkpoint path is supplied and the file is missing or
corrupt, torch.load raises before any state is restored, the exception
propagates out of __init__, and construction aborts with the load error:
no solver is produced, so in particular start_iter is never set to 1. -/
theorem solver_init_load_failure (ms : StateDict) (cfg : InitConfig) (dir : CheckpointDir)
    (p : ℕ) (hp : cfg.checkpoint = some p) :
    (dir p = FileContent.missing →
      solver_init ms cfg dir = Except.error LoadError.file_not_found)
    ∧ (dir p = FileContent.corrupt →
      solver_init ms cfg dir = Except.error LoadError.corrupt_file) := by
  constructor
  · intro hd
    simp [solver_init, _load, torch_load, hp, hd]
  · intro hd
    simp [solver_init, _load, torch_load, hp, hd]

theorem solver_init_load_failure_witness :
    ({ optimizer_rule := "adam", checkpoint := some 5 } : InitConfig).checkpoint = some 5
    ∧ empty_dir 5 = FileContent.missing
    ∧ solver_init [] { optimizer_rule := "adam", checkpoint := some 5 } empty_dir
        = Except.error LoadError.file_not_found :=
  ⟨rfl, rfl, (solver_init_load_failure [] _ empty_dir 5 rfl).1 rfl⟩

/-! ### Snapshot scheduling (claim C9) -/

/-- The checkpoint-directory effect of training_end_iter_handler (solver.py
lines 116-131): printing, scalar logging and the eval_every validation run
touch no checkpoint file; a snapshot is saved iff the iteration is
divisible by snapshot_steps. -/
def training_end_iter_handler (model_state optimizer_state : StateDict)
    (snapshot_steps : ℕ) (epoch iteration : ℕ) (loss : ℚ)
    (dir : CheckpointDir) : CheckpointDir :=
  if iteration % snapshot_steps = 0 then
    _save model_state optimizer_state epoch iteration loss dir
  else dir

/-- Run the iteration-completed handler for iterations 1..n in order
(epochAt and lossAt are the engine state observed at each iteration). -/
def run_iters (model_state optimizer_state : StateDict) (snapshot_steps : ℕ)
    (epochAt : ℕ → ℕ) (lossAt : ℕ → ℚ) : ℕ → CheckpointDir → CheckpointDir
  | 0, dir => dir
  | n + 1, dir =>
      training_end_iter_handler model_state optimizer_state snapshot_steps
        (epochAt (n + 1)) (n + 1) (lossAt (n + 1))
        (run_iters model_state optimizer_state snapshot_steps epochAt lossAt n dir)

theorem run_iters_preserve (ms os : StateDict) (ss : ℕ) (eA : ℕ → ℕ) (lA : ℕ → ℚ)
    (dir : CheckpointDir) :
    ∀ (n p : ℕ), (p % ss ≠ 0 ∨ n < p ∨ p = 0) →
      run_iters ms os ss eA lA n dir p = dir p := by
  intro n
  induction n with
  | zero => intro p _; rfl
  | succ n ih =>
    intro p hp
    rw [show run_iters ms os ss eA lA (n + 1) dir
        = training_end_iter_handler ms os ss (eA (n + 1)) (n + 1) (lA (n + 1))
            (run_iters ms os ss eA lA n dir) from rfl]
    unfold training_end_iter_handler
    have hih : p % ss ≠ 0 ∨ n < p ∨ p = 0 := by
      rcases hp with h | h | h
      · exact Or.inl h
      · exact Or.inr (Or.inl (by omega))
      · exact Or.inr (Or.inr h)
    by_cases hdiv : (n + 1) % ss = 0
    · rw [if_pos hdiv]
      unfold _save
      by_cases hpe : p = n + 1
      · exfalso
        subst hpe
        rcases hp with h | h | h
        · exact h hdiv
        · omega
        · omega
      · rw [if_neg hpe]
        exact ih p hih
    · rw [if_neg hdiv]
      exact ih p hih

theorem run_iters_saved (ms os : StateDict) (ss : ℕ) (eA : ℕ → ℕ) (lA : ℕ → ℚ)
    (dir : CheckpointDir) :
    ∀ (n p : ℕ), 1 ≤ p → p ≤ n → p % ss = 0 →
      run_iters ms os ss eA lA n dir p
        = FileContent.valid
            { epoch := eA p, iteration := p, model_state_dict := ms,
              optimizer_state_dict := os, loss := lA p } := by
  intro n
  induction n with
  | zero => intro p h1 h2 _; omega
  | succ n ih =>
    intro p h1 h2 hdiv
    rw [show run_iters ms os ss eA lA (n + 1) dir
        = training_end_iter_handler ms os ss (eA (n + 1)) (n + 1) (lA (n + 1))
            (run_iters ms os ss eA lA n dir) from rfl]
    unfold training_end_iter_handler
    by_cases hpe : p = n + 1
    · subst hpe
      rw [if_pos hdiv]
      unfold _save
      rw [if_pos rfl]
    · have hpn : p ≤ n := by omega
      by_cases hdiv2 : (n + 1) % ss = 0
      · rw [if_pos hdiv2]
        unfold _save
        rw [if_neg hpe]
        exact ih p h1 hpn hdiv
      · rw [if_neg hdiv2]
        exact ih p h1 hpn hdiv

/-- C9: with snapshot_steps = 100 the iteration-completed handler saves
exactly at iterations divisible by 100; every save writes only the file
named by its own iteration, so saves at distinct iterations never
overwrite one another; running iterations 1..200 from an empty directory
leaves checkpoints named 100 and 200, while after iterations 1..150 there
is no checkpoint named 150. -/
theorem snapshot_schedule (ms os : StateDict) (eA : ℕ → ℕ) (lA : ℕ → ℚ)
    (i j p e : ℕ) (l : ℚ) (dir : CheckpointDir)
    (hi : i % 100 ≠ 0) (hj : j % 100 = 0) (hp : p ≠ i) :
    training_end_iter_handler ms os 100 e i l dir = dir
    ∧ training_end_iter_handler ms os 100 e j l dir = _save ms os e j l dir
    ∧ _save ms os e i l dir p = dir p
    ∧ run_iters ms os 100 eA lA 200 empty_dir 100
        = FileContent.valid
            { epoch := eA 100, iteration := 100, model_state_dict := ms,
              optimizer_state_dict := os, loss := lA 100 }
    ∧ run_iters ms os 100 eA lA 200 empty_dir 200
        = FileContent.valid
            { epoch := eA 200, iteration := 200, model_state_dict := ms,
              optimizer_state_dict := os, loss := lA 200 }
    ∧ run_iters ms os 100 eA lA 150 empty_dir 150 = FileContent.missing := by
  refine ⟨?_, ?_, ?_, ?_, ?_, ?_⟩
  · unfold training_end_iter_handler
    rw [if_neg hi]
  · unfold training_end_iter_handler
    rw [if_pos hj]
  · unfold _save
    rw [if_neg hp]
  · exact run_iters_saved ms os 100 eA lA empty_dir 200 100
      (by norm_num) (by norm_num) (by norm_num)
  · exact run_iters_saved ms os 100 eA lA empty_dir 200 200
      (by norm_num) (by norm_num) (by norm_num)
  · exact run_iters_preserve ms os 100 eA lA empty_dir 150 150 (Or.inl (by norm_num))

theorem snapshot_schedule_witness :
    (7 : ℕ) % 100 ≠ 0 ∧ (300 : ℕ) % 100 = 0 ∧ (5 : ℕ) ≠ 7
    ∧ run_iters [] [] 100 (fun _ => 0) (fun _ => 0) 150 empty_dir 150
        = FileContent.missing :=
  ⟨by decide, by decide, by decide,
    (snapshot_schedule [] [] (fun _ => 0) (fun _ => 0) 7 300 5 0 0 empty_dir
      (by decide) (by decide) (by decide)).2.2.2.2.2⟩

/-! ### Evaluation dispatch (claim C10) -/

/-- The two loaders the test engine can be run over by test(). -/
inductive LoaderUsed
  | val_loader
  | test_loader (dataset : Option (List RawExample))

/-- Scores mapping (metric name to scalar) from test_state.scores. -/
abbrev Scores := List (String × ℚ)

/-- The observable outcome of CaptioningSolver.test: which loader the test
engine was run over, and the returned value. -/
structure TestRun where
  loader : LoaderUsed
  ret : Option Scores

/-- The evaluation collaborators: a test-engine pass over the validation
loader yields engine.state.scores (beam decoding plus the external scorer,
abstracted as one value). -/
structure EvalEnv where
  val_scores : Scores

/-- Embedding of test (solver.py lines 207-213): with is_validation=True
the engine runs over self.val_loader and test_state.scores is returned;
otherwise a new DataLoader over test_dataset is run and the method falls
off the end, returning None. -/
def test (env : EvalEnv) (test_dataset : Option (List RawExample))
    (is_validation : Bool) : TestRun :=
  if is_validation = true then
    { loader := LoaderUsed.val_loader, ret := some env.val_scores }
  else
    { loader := LoaderUsed.test_loader test_dataset, ret := none }

/-- C10: with is_validation=True the test_dataset argument is ignored and
the evaluation runs over the internal validation loader, returning the
scores mapping; with is_validation=False the supplied dataset is the one
evaluated and the call returns None, never a scores mapping. -/
theorem test_validation_behaviour (env : EvalEnv) (d d' : Option (List RawExample)) :
    test env d true = test env d' true
    ∧ (test env d true).loader = LoaderUsed.val_loader
    ∧ (test env d true).ret = some env.val_scores
    ∧ (test env d false).loader = LoaderUsed.test_loader d
    ∧ (test env d false).ret = none :=
  ⟨rfl, rfl, rfl, rfl, rfl⟩
